import Mathlib

/-!
Shallow embedding of the comment-system backend (src/server.ts) and proofs
about its operations.  The Prisma-backed comment table is modelled as a list
of `Comment` records; each HTTP route handler and Socket.IO event handler from
server.ts is translated into a pure function on that store.  JavaScript
truthiness checks on request fields are modelled with `Option String`
arguments (`none` = missing field, `some ("")` = empty string, both falsy).
-/

/-- A comment record, following the Prisma `comment` model used by
src/server.ts: `id` (primary key), `nickname`, `text`, optional `parentId`,
`edited` flag, `likes` counter and `createdAt` timestamp (modelled as `Nat`).
`likes` is an `Int` because the code computes `likes - 1`. -/
structure Comment where
  id : String
  nickname : String
  text : String
  parentId : Option String
  edited : Bool
  likes : Int
  createdAt : Nat
deriving DecidableEq, Repr

/-- The comment table: the durable store keyed by `Comment.id`. -/
abbrev Store := List Comment

/-- Modelled from the spec: the Prisma schema file is not under src/.  Per the
spec (section 3), the `edited` flag "defaults false"; both create paths rely
on this schema default. -/
def defaultEdited : Bool := false

/-- Modelled from the spec: the Prisma schema file is not under src/.  Per the
spec (section 3), `likes` is an "integer counter, defaults 0"; the realtime
create path relies on this schema default (the HTTP path sets `likes: 0`
explicitly). -/
def defaultLikes : Int := 0

/-- `prisma.comment.findUnique({where: {id}})`: the record with the given id
(the first one in the list; ids are unique in every store we reason about). -/
def getComment (s : Store) (i : String) : Option Comment :=
  s.find? (fun c => c.id == i)

/-- Does a record with this id exist in the store? -/
def hasId (s : Store) (i : String) : Bool :=
  s.any (fun c => c.id == i)

/-- `prisma.comment.findMany({where: {parentId: id}})`, projected to ids:
the direct children of `i`. -/
def childIds (s : Store) (i : String) : List String :=
  (s.filter (fun c => c.parentId == some i)).map Comment.id

/-- `prisma.comment.delete({where: {id}})`: removes the record with the given
id, or fails (Prisma throws `P2025`) when no such record exists. -/
def deleteUnique (s : Store) (i : String) : Option Store :=
  if hasId s i then some (s.filter (fun c => !(c.id == i))) else none

/-- `prisma.comment.deleteMany({where: {id}})`: removes all matching records
and reports how many were removed (never throws). -/
def deleteManyById (s : Store) (i : String) : Store × Nat :=
  (s.filter (fun c => !(c.id == i)), (s.filter (fun c => c.id == i)).length)

/-- `prisma.comment.update({where: {id}, data: ...})`: rewrites the record
with the given id through `f` and returns the updated record, or fails
(Prisma throws) when no such record exists. -/
def updateUnique (s : Store) (i : String) (f : Comment → Comment) :
    Option (Store × Comment) :=
  match getComment s i with
  | none => none
  | some c => some (s.map (fun x => if x.id == i then f x else x), f c)

/-- The `parentId || null` coercion in server.ts: a missing or empty
`parentId` is stored as null. -/
def orNull (p : Option String) : Option String :=
  match p with
  | none => none
  | some t => if t == "" then none else some t

/-- Events emitted through Socket.IO by the handlers in server.ts.  `noEmit`
records that a handler finished without broadcasting anything (its `catch`
branch only logs, or it returned early). -/
inductive SocketEmit where
  | newComment (c : Comment)
  | updatedComment (c : Comment)
  | likeChanged (commentId : String) (likes : Int)
  | deleted (commentId : String)
  | errorMsg
  | noEmit
deriving DecidableEq, Repr

/-- The response shape of `GET /comments`. -/
structure ListResponse where
  comments : List Comment
  totalComments : Nat
  totalPages : Nat
  currentPage : Nat
deriving DecidableEq, Repr

/-- Sort order used by `GET /comments`: `orderBy: { createdAt: 'desc' }`
(newest first). -/
def olderFirst : Comment → Comment → Prop := fun a b => b.createdAt ≤ a.createdAt

instance : DecidableRel olderFirst := fun a b => Nat.decLe b.createdAt a.createdAt

instance : IsTotal Comment olderFirst :=
  ⟨fun a b => Nat.le_total b.createdAt a.createdAt⟩

instance : IsTrans Comment olderFirst :=
  ⟨fun _ _ _ h1 h2 => Nat.le_trans h2 h1⟩

/-- `GET /comments`: paginated listing.  `skip = (page-1)*limit` records are
skipped and at most `limit` records of the `createdAt`-descending ordering
are returned, together with `totalComments`, `totalPages =
Math.ceil(totalComments/limit)` and `currentPage`. -/
def listComments (s : Store) (page limit : Nat) : ListResponse :=
  let skip := (page - 1) * limit
  let sorted := List.insertionSort olderFirst s
  ⟨(sorted.drop skip).take limit, s.length, (s.length + limit - 1) / limit, page⟩

/-- `POST /comments`: rejects a missing or empty `nickname` or `text` with
status 400, otherwise inserts a record with `likes: 0` (and the schema
default for `edited`) and answers 201.  The store assigns `newId` and `now`. -/
def postComments (s : Store) (newId : String) (now : Nat)
    (nickname text parentId : Option String) : Store × Nat :=
  match nickname, text with
  | some nn, some tt =>
    if nn == "" || tt == "" then (s, 400)
    else (s ++ [⟨newId, nn, tt, orNull parentId, defaultEdited, 0, now⟩], 201)
  | _, _ => (s, 400)

/-- `PUT /comments`: rejects a missing or empty `id` or `text` with 400;
otherwise `updateMany({where: {id}, data: {text, edited: true}})` and answers
404 when no record matched, 200 otherwise. -/
def putComments (s : Store) (id text : Option String) : Store × Nat :=
  match id, text with
  | some i, some t =>
    if i == "" || t == "" then (s, 400)
    else
      if (s.filter (fun c => c.id == i)).length == 0 then (s, 404)
      else (s.map (fun c => if c.id == i then { c with text := t, edited := true } else c), 200)
  | _, _ => (s, 400)

/-- `DELETE /comments`: rejects a missing or empty `id` with 400; otherwise
`deleteMany({where: {id}})` and answers 404 when no record matched, 200
otherwise. -/
def deleteComments (s : Store) (id : Option String) : Store × Nat :=
  match id with
  | some i =>
    if i == "" then (s, 400)
    else
      let r := deleteManyById s i
      if r.2 == 0 then (s, 404) else (r.1, 200)
  | none => (s, 400)

/-- The `socket.on("comment")` handler: creates the record with no validation
at all and broadcasts it as a `newComment` event.  `likes` and `edited` take
the schema defaults. -/
def socketComment (s : Store) (newId : String) (now : Nat)
    (nickname text : String) (parentId : Option String) : Store × SocketEmit :=
  let saved : Comment := ⟨newId, nickname, text, orNull parentId, defaultEdited, defaultLikes, now⟩
  (s ++ [saved], .newComment saved)

/-- The `socket.on("updateComment")` handler: `prisma.comment.update` with
`data: {nickname, text, edited: comment.edited}`.  A missing `edited` field in
the payload leaves the stored flag unchanged (Prisma skips `undefined`
fields); when the id is unknown the update throws, the catch branch only
logs, and nothing is broadcast. -/
def socketUpdateComment (s : Store) (cid : String) (nickname text : String)
    (edited : Option Bool) : Store × SocketEmit :=
  match updateUnique s cid
      (fun c => { c with nickname := nickname, text := text, edited := edited.getD c.edited }) with
  | some (s', c') => (s', .updatedComment c')
  | none => (s, .noEmit)

/-- The `socket.on("likeComment")` handler: looks the comment up, returns
silently when it is absent, otherwise toggles
`updatedLikes = likes > 0 ? likes - 1 : likes + 1`, writes it back and
broadcasts `{commentId, likes}` with the updated record's values. -/
def socketLikeComment (s : Store) (commentId : String) : Store × SocketEmit :=
  match getComment s commentId with
  | none => (s, .noEmit)
  | some existingComment =>
    let updatedLikes :=
      if existingComment.likes > 0 then existingComment.likes - 1
      else existingComment.likes + 1
    match updateUnique s commentId (fun c => { c with likes := updatedLikes }) with
    | some (s', u) => (s', .likeChanged u.id u.likes)
    | none => (s, .noEmit)

/-- Outcome of the recursive cascade delete.  `ok` carries the resulting
store and the ids in the order they were deleted; `failed` carries the store
at the moment a `prisma.comment.delete` call threw (no rollback happens);
`noFuel` is the embedding's marker for a recursion that would not terminate
within the given fuel. -/
inductive DeleteResult where
  | noFuel : DeleteResult
  | failed (s : Store) : DeleteResult
  | ok (s : Store) (removed : List String) : DeleteResult
deriving DecidableEq, Repr

/-- The `deleteCommentRecursively` closure of the `socket.on("deleteComment")`
handler: finds all direct children of `id`, recursively deletes each child
first (the `for` loop over the snapshot of children, threading the evolving
store), then deletes the `id` record itself.  The extra `Nat` fuel argument
bounds the recursion depth of the embedding; the source recursion has no such
bound. -/
def deleteCommentRecursively : Nat → Store → String → DeleteResult
  | 0, _, _ => .noFuel
  | Nat.succ n, s, i =>
    let afterChildren := (childIds s i).foldl
      (fun acc c =>
        match acc with
        | DeleteResult.ok s1 v1 =>
          match deleteCommentRecursively n s1 c with
          | DeleteResult.ok s2 v2 => DeleteResult.ok s2 (v1 ++ v2)
          | r => r
        | r => r)
      (DeleteResult.ok s [])
    match afterChildren with
    | DeleteResult.ok s1 v =>
      match deleteUnique s1 i with
      | some s2 => DeleteResult.ok s2 (v ++ [i])
      | none => DeleteResult.failed s1
    | r => r

/-- The child loop of `deleteCommentRecursively`, written as a plain
recursion over the snapshot list of ids (proof-friendly form of the `foldl`
above; the two agree, see `foldl_eq_deleteChildList`). -/
def deleteChildList (n : Nat) : Store → List String → DeleteResult
  | s, [] => .ok s []
  | s, c :: rest =>
    match deleteCommentRecursively n s c with
    | .ok s1 v1 =>
      match deleteChildList n s1 rest with
      | .ok s2 v2 => .ok s2 (v1 ++ v2)
      | r => r
    | r => r

/-- Fuel that always suffices for an acyclic store (proved below): the
recursion depth is bounded by the subtree size, which is at most the store
size. -/
def delFuel (s : Store) : Nat := s.length + 2

/-- The `socket.on("deleteComment")` handler: runs the recursive deletion
from the requested id and broadcasts a single `deleteComment` event naming
that root id; if any delete step throws, the catch branch broadcasts a
generic `error` event and the store keeps the partially deleted state. -/
def socketDeleteComment (s : Store) (commentId : String) : Store × SocketEmit :=
  match deleteCommentRecursively (delFuel s) s commentId with
  | .ok s' _ => (s', .deleted commentId)
  | .failed s' => (s', .errorMsg)
  | .noFuel => (s, .noEmit)

/-- One inbound mutation, over every path src/server.ts accepts. -/
inductive Op where
  | httpCreate (newId : String) (now : Nat) (nickname text parentId : Option String)
  | rtCreate (newId : String) (now : Nat) (nickname text : String) (parentId : Option String)
  | httpEdit (id text : Option String)
  | rtEdit (id nickname text : String) (edited : Option Bool)
  | rtLike (id : String)
  | httpDelete (id : Option String)
  | rtDelete (id : String)
deriving DecidableEq, Repr

/-- The store left behind by one operation (statuses and events projected
away). -/
def applyOp (s : Store) : Op → Store
  | .httpCreate newId now nickname text parentId =>
    (postComments s newId now nickname text parentId).1
  | .rtCreate newId now nickname text parentId =>
    (socketComment s newId now nickname text parentId).1
  | .httpEdit id text => (putComments s id text).1
  | .rtEdit id nickname text edited => (socketUpdateComment s id nickname text edited).1
  | .rtLike id => (socketLikeComment s id).1
  | .httpDelete id => (deleteComments s id).1
  | .rtDelete id => (socketDeleteComment s id).1

/-- A finite sequence of non-concurrent operations. -/
def applyOps (s : Store) (ops : List Op) : Store := ops.foldl applyOp s

/-- The parent-to-child edge of the comment forest: `ChildEdge s a b` holds
when the store contains a record with id `b` whose `parentId` is `a`. -/
def ChildEdge (s : Store) (a b : String) : Prop :=
  ∃ c, c ∈ s ∧ c.id = b ∧ c.parentId = some a

/-- `Reaches s r d`: `d` is `r` itself or a transitive descendant of `r`
along `parentId` edges. -/
def Reaches (s : Store) : String → String → Prop :=
  Relation.ReflTransGen (ChildEdge s)

/-- The parent-edge relation restricted to existing records is acyclic. -/
def Acyclic (s : Store) : Prop :=
  ∀ a, ¬ Relation.TransGen (ChildEdge s) a a

/-- Fuel-bounded upward walk along `parentId` links: `true` when the walk
starting at `i` leaves the store (a record with no parent, or a dangling
parent reference) within the given fuel. -/
def walkOutF : Nat → Store → String → Bool
  | 0, _, _ => false
  | Nat.succ n, s, i =>
    match getComment s i with
    | none => true
    | some c =>
      match c.parentId with
      | none => true
      | some p => walkOutF n s p

/-- Decidable acyclicity check: from every record, the upward parent walk
leaves the store within `s.length + 1` steps.  Sound for `Acyclic` on stores
with unique ids (`acyclicB_sound`). -/
def acyclicB (s : Store) : Bool :=
  s.all (fun c => walkOutF (s.length + 1) s c.id)

/-- Upward reachability check: walk the parent chain up from `d`, deleting
each visited record, and report whether `r` is met.  On stores with unique
ids this decides `Reaches s r d` (`reachB_sound`, `reachB_complete`). -/
def reachB (s : Store) (r d : String) : Bool :=
  if d == r then true
  else
    match h : getComment s d with
    | some c =>
      match c.parentId with
      | some p => reachB (s.filter (fun x => !(x.id == d))) r p
      | none => false
    | none => false
termination_by s.length
decreasing_by
  have h' : s.find? (fun c => c.id == d) = some c := h
  have hc : c ∈ s := List.mem_of_find?_eq_some h'
  have hid : (c.id == d) = true := by simpa using List.find?_some h'
  have hsub : List.Sublist (List.filter (fun x => !(x.id == d)) s) s := List.filter_sublist s
  have hnotin : c ∉ List.filter (fun x => !(x.id == d)) s := by
    intro hmem
    have hp := List.of_mem_filter hmem
    simp only [hid, Bool.not_true] at hp
    exact Bool.false_ne_true hp
  rcases Nat.lt_or_ge (List.filter (fun x => !(x.id == d)) s).length s.length with hlt | hge
  · exact hlt
  · exact absurd ((hsub.eq_of_length (Nat.le_antisymm hsub.length_le hge)).symm ▸ hc) hnotin

/-- Number of records in the subtree rooted at `r` (the recursion measure for
the cascade-delete proofs). -/
def descCount (s : Store) (r : String) : Nat :=
  (s.filter (fun c => reachB s r c.id)).length

/-- A concrete store with 25 comments, for the pagination example of the
spec. -/
def demoStore : Store :=
  (List.range 25).map (fun k => ⟨toString k, "n", "t", none, false, 0, k⟩)

/-- A concrete store holding the tree a ← b ← c plus an unrelated root d. -/
def exStore : Store :=
  [⟨"a", "n", "t", none, false, 0, 0⟩,
   ⟨"b", "n", "t", some ("a"), false, 0, 1⟩,
   ⟨"c", "n", "t", some ("b"), false, 0, 2⟩,
   ⟨"d", "n", "t", none, false, 0, 3⟩]

/-! ### Basic store lemmas -/

lemma getComment_mem {s : Store} {i : String} {c : Comment}
    (h : getComment s i = some c) : c ∈ s ∧ c.id = i := by
  have h' : s.find? (fun c => c.id == i) = some c := h
  refine ⟨List.mem_of_find?_eq_some h', ?_⟩
  have := List.find?_some h'
  simpa using this

lemma uniqueRecord {s : Store} (hnd : (s.map Comment.id).Nodup) {c c' : Comment}
    (hc : c ∈ s) (hc' : c' ∈ s) (hid : c.id = c'.id) : c = c' :=
  List.inj_on_of_nodup_map hnd hc hc' hid

lemma getComment_of_mem {s : Store} (hnd : (s.map Comment.id).Nodup) {c : Comment}
    (hc : c ∈ s) : getComment s c.id = some c := by
  have hsome : (s.find? (fun x => x.id == c.id)).isSome := by
    rw [List.find?_isSome]
    exact ⟨c, hc, by simp⟩
  rcases Option.isSome_iff_exists.1 hsome with ⟨c', hc'⟩
  rcases getComment_mem hc' with ⟨hmem, hid⟩
  have : c' = c := uniqueRecord hnd hmem hc hid
  exact this ▸ hc'

lemma hasId_iff {s : Store} {i : String} :
    hasId s i = true ↔ ∃ c, c ∈ s ∧ c.id = i := by
  simp [hasId, List.any_eq_true]

lemma hasId_false_iff {s : Store} {i : String} :
    hasId s i = false ↔ ∀ c ∈ s, c.id ≠ i := by
  rw [← Bool.not_eq_true, hasId_iff]
  push_neg
  constructor
  · intro h c hc
    exact h c hc
  · intro h c hc
    exact h c hc

/-! ### Reachability lemmas -/

lemma childEdge_mono {s₁ s₂ : Store} (hsub : ∀ c, c ∈ s₁ → c ∈ s₂) {a b : String}
    (h : ChildEdge s₁ a b) : ChildEdge s₂ a b := by
  rcases h with ⟨c, hc, hid, hp⟩
  exact ⟨c, hsub c hc, hid, hp⟩

lemma reaches_mono {s₁ s₂ : Store} (hsub : ∀ c, c ∈ s₁ → c ∈ s₂) {a b : String}
    (h : Reaches s₁ a b) : Reaches s₂ a b :=
  Relation.ReflTransGen.mono (fun _ _ => childEdge_mono hsub) h

lemma acyclic_mono {s₁ s₂ : Store} (hsub : ∀ c, c ∈ s₁ → c ∈ s₂)
    (h : Acyclic s₂) : Acyclic s₁ := fun a hcyc =>
  h a (Relation.TransGen.mono (fun _ _ => childEdge_mono hsub) hcyc)

lemma edge_unique {s : Store} (hnd : (s.map Comment.id).Nodup) {a a' b : String}
    (h : ChildEdge s a b) (h' : ChildEdge s a' b) : a = a' := by
  rcases h with ⟨c, hc, hid, hp⟩
  rcases h' with ⟨c', hc', hid', hp'⟩
  have : c = c' := uniqueRecord hnd hc hc' (hid.trans hid'.symm)
  subst this
  exact Option.some.inj (hp.symm.trans hp')

lemma cycle_of_edge_reaches {s : Store} (hacy : Acyclic s) {a b : String}
    (he : ChildEdge s a b) (hr : Reaches s b a) : False :=
  hacy a (Relation.TransGen.head' he hr)

lemma reaches_antisymm {s : Store} (hacy : Acyclic s) {a b : String}
    (hab : Reaches s a b) (hba : Reaches s b a) : a = b := by
  rcases Relation.ReflTransGen.cases_head hab with heq | ⟨c, hac, hcb⟩
  · exact heq
  · exact absurd (Relation.TransGen.head' hac (hcb.trans hba)) (hacy a)

/-- On a store with unique ids, two ancestors of the same node are
comparable: the upward parent chain from `y` is unique. -/
lemma reaches_comparable {s : Store} (hnd : (s.map Comment.id).Nodup) {a b y : String}
    (ha : Reaches s a y) (hb : Reaches s b y) : Reaches s a b ∨ Reaches s b a := by
  induction ha with
  | refl => exact Or.inr hb
  | tail hay' he ih =>
    rename_i y' z
    rcases Relation.ReflTransGen.cases_tail hb with heq | ⟨w, hbw, hwz⟩
    · subst heq
      exact Or.inl (Relation.ReflTransGen.tail hay' he)
    · have : y' = w := edge_unique hnd he hwz
      subst this
      exact ih hbw

lemma filter_ne_length_lt {s : Store} {d : String} {c : Comment}
    (hc : c ∈ s) (hid : c.id = d) :
    (s.filter (fun x => !(x.id == d))).length < s.length := by
  have hsub : List.Sublist (s.filter (fun x => !(x.id == d))) s := List.filter_sublist s
  have hnotin : c ∉ s.filter (fun x => !(x.id == d)) := by
    intro hmem
    have hp := List.of_mem_filter hmem
    simp [hid] at hp
  rcases Nat.lt_or_ge (s.filter (fun x => !(x.id == d))).length s.length with hlt | hge
  · exact hlt
  · exact absurd ((hsub.eq_of_length (Nat.le_antisymm hsub.length_le hge)).symm ▸ hc) hnotin

lemma mem_of_mem_filter_store {s : Store} {p : Comment → Bool} :
    ∀ t, t ∈ s.filter p → t ∈ s := fun _ ht => (List.mem_filter.1 ht).1

/-- Removing the record of an id that cannot reach `b` preserves every
downward chain ending at `b`. -/
lemma reaches_delete {s : Store} {x a b : String}
    (hab : Reaches s a b) (hx : ¬ Reaches s x b) :
    Reaches (s.filter (fun t => !(t.id == x))) a b := by
  induction hab with
  | refl => exact Relation.ReflTransGen.refl
  | tail hay he ih =>
    rename_i y z
    have hxy : ¬ Reaches s x y := fun hr => hx (hr.tail he)
    rcases he with ⟨c, hc, hid, hp⟩
    have hzx : z ≠ x := by
      rintro rfl
      exact hx Relation.ReflTransGen.refl
    refine (ih hxy).tail ⟨c, ?_, hid, hp⟩
    refine List.mem_filter.2 ⟨hc, ?_⟩
    simp [hid, hzx]

lemma reachB_sound : ∀ (n : Nat) (s : Store) (r d : String), s.length ≤ n →
    reachB s r d = true → Reaches s r d := by
  intro n
  induction n with
  | zero =>
    intro s r d hlen h
    rw [reachB] at h
    by_cases hdr : (d == r) = true
    · have : d = r := by simpa using hdr
      subst this
      exact Relation.ReflTransGen.refl
    · have hs : s = [] := List.length_eq_zero.1 (Nat.le_zero.1 hlen)
      subst hs
      rw [if_neg hdr] at h
      split at h
      · rename_i c hg
        exact absurd hg (by simp [getComment])
      · cases h
  | succ n ih =>
    intro s r d hlen h
    rw [reachB] at h
    by_cases hdr : (d == r) = true
    · have : d = r := by simpa using hdr
      subst this
      exact Relation.ReflTransGen.refl
    · rw [if_neg hdr] at h
      split at h
      · rename_i c hg
        split at h
        · rename_i p hp
          rcases getComment_mem hg with ⟨hmem, hid⟩
          have hlt : (s.filter (fun x => !(x.id == d))).length ≤ n :=
            Nat.le_of_lt_succ (Nat.lt_of_lt_of_le (filter_ne_length_lt hmem hid) hlen)
          have hr := ih _ r p hlt h
          exact (reaches_mono mem_of_mem_filter_store hr).tail ⟨c, hmem, hid, hp⟩
        · cases h
      · cases h

lemma reachB_complete : ∀ (n : Nat) (s : Store) (r d : String), s.length ≤ n →
    (s.map Comment.id).Nodup → Acyclic s → Reaches s r d → reachB s r d = true := by
  intro n
  induction n with
  | zero =>
    intro s r d hlen hnd hacy hr
    have hs : s = [] := List.length_eq_zero.1 (Nat.le_zero.1 hlen)
    subst hs
    rcases Relation.ReflTransGen.cases_tail hr with heq | ⟨p, _, hpd⟩
    · subst heq
      rw [reachB]
      simp
    · rcases hpd with ⟨c, hc, _, _⟩
      cases hc
  | succ n ih =>
    intro s r d hlen hnd hacy hr
    by_cases hdr : d = r
    · subst hdr
      rw [reachB]
      simp
    · rcases Relation.ReflTransGen.cases_tail hr with heq | ⟨p, hrp, hpd⟩
      · exact absurd heq hdr
      · rcases hpd with ⟨cd, hcd, hid, hpp⟩
        have hg : getComment s d = some cd := hid ▸ getComment_of_mem hnd hcd
        rw [reachB, if_neg (by simpa using hdr)]
        split
        · rename_i c hgc
          rw [hg] at hgc
          injection hgc with hceq
          subst hceq
          split
          · rename_i p' hp'
            rw [hpp] at hp'
            injection hp' with hpeq
            subst hpeq
            have hlt : (s.filter (fun x => !(x.id == d))).length ≤ n :=
              Nat.le_of_lt_succ (Nat.lt_of_lt_of_le (filter_ne_length_lt hcd hid) hlen)
            have hnd' : ((s.filter (fun x => !(x.id == d))).map Comment.id).Nodup :=
              hnd.sublist ((List.filter_sublist s).map Comment.id)
            have hacy' : Acyclic (s.filter (fun x => !(x.id == d))) :=
              acyclic_mono mem_of_mem_filter_store hacy
            have hndp : ¬ Reaches s d p := fun hdp =>
              cycle_of_edge_reaches hacy ⟨cd, hcd, hid, hpp⟩ hdp
            exact ih _ r p hlt hnd' hacy' (reaches_delete hrp hndp)
          · rename_i hp'
            rw [hpp] at hp'
            cases hp'
        · rename_i hgc
          rw [hg] at hgc
          cases hgc

lemma walkOutF_false_of_cycle {s : Store} (hnd : (s.map Comment.id).Nodup) :
    ∀ (n : Nat) (a : String), Relation.TransGen (ChildEdge s) a a →
      walkOutF n s a = false := by
  intro n
  induction n with
  | zero => intro a _; rfl
  | succ n ih =>
    intro a h
    rcases Relation.TransGen.tail'_iff.1 h with ⟨z, haz, hza⟩
    rcases hza with ⟨ca, hca, hid, hp⟩
    have hg : getComment s a = some ca := hid ▸ getComment_of_mem hnd hca
    have hcycz : Relation.TransGen (ChildEdge s) z z :=
      Relation.TransGen.head' ⟨ca, hca, hid, hp⟩ haz
    show walkOutF (Nat.succ n) s a = false
    simp only [walkOutF, hg, hp]
    exact ih z hcycz

lemma acyclicB_sound {s : Store} (hnd : (s.map Comment.id).Nodup)
    (hb : acyclicB s = true) : Acyclic s := by
  intro a hcyc
  rcases Relation.TransGen.tail'_iff.1 hcyc with ⟨z, _, hza⟩
  rcases hza with ⟨ca, hca, hid, _⟩
  have hb' : s.all (fun c => walkOutF (s.length + 1) s c.id) = true := hb
  have hw := List.all_eq_true.1 hb' ca hca
  rw [hid, walkOutF_false_of_cycle hnd _ a hcyc] at hw
  cases hw

lemma reachB_self (s : Store) (r : String) : reachB s r r = true := by
  rw [reachB]
  simp

/-! ### Subtree-size measure lemmas -/

lemma filter_mono_of_imp {l : List Comment} {p q : Comment → Bool}
    (h : ∀ x ∈ l, p x = true → q x = true) :
    List.Sublist (l.filter p) (l.filter q) := by
  induction l with
  | nil => simp
  | cons a l ih =>
    have ih' := ih (fun x hx hp => h x (List.mem_cons_of_mem a hx) hp)
    by_cases hpa : p a = true
    · rw [List.filter_cons_of_pos hpa, List.filter_cons_of_pos (h a (List.mem_cons_self a l) hpa)]
      exact ih'.cons₂ a
    · rw [List.filter_cons_of_neg (by simpa using hpa)]
      by_cases hqa : q a = true
      · rw [List.filter_cons_of_pos hqa]
        exact ih'.cons a
      · rw [List.filter_cons_of_neg (by simpa using hqa)]
        exact ih'

lemma sublist_length_lt {l₁ l₂ : List Comment} (h : List.Sublist l₁ l₂) {a : Comment}
    (ha : a ∈ l₂) (hna : a ∉ l₁) : l₁.length < l₂.length := by
  rcases Nat.lt_or_ge l₁.length l₂.length with hlt | hge
  · exact hlt
  · exact absurd ((h.eq_of_length (Nat.le_antisymm h.length_le hge)).symm ▸ ha) hna

lemma descCount_le_length (s : Store) (r : String) : descCount s r ≤ s.length :=
  (List.filter_sublist s).length_le

lemma descCount_le_of_sublist {s s₁ : Store} (hnd : (s.map Comment.id).Nodup)
    (hacy : Acyclic s) (hsub : List.Sublist s₁ s) (i : String) :
    descCount s₁ i ≤ descCount s i := by
  have himp : ∀ x ∈ s₁, reachB s₁ i x.id = true → reachB s i x.id = true := by
    intro x hx hr
    have hr' : Reaches s₁ i x.id := reachB_sound s₁.length s₁ i x.id le_rfl hr
    have hr'' : Reaches s i x.id := reaches_mono (fun c hc => hsub.subset hc) hr'
    exact reachB_complete s.length s i x.id le_rfl hnd hacy hr''
  exact ((filter_mono_of_imp himp).trans (hsub.filter _)).length_le

lemma descCount_child_lt {s : Store} (hnd : (s.map Comment.id).Nodup)
    (hacy : Acyclic s) {r c : String} (hedge : ChildEdge s r c)
    (hr : hasId s r = true) : descCount s c < descCount s r := by
  rcases hasId_iff.1 hr with ⟨cr, hcr, hcrid⟩
  have himp : ∀ x ∈ s, reachB s c x.id = true → reachB s r x.id = true := by
    intro x hx hb
    have h1 : Reaches s c x.id := reachB_sound s.length s c x.id le_rfl hb
    have h2 : Reaches s r x.id := (Relation.ReflTransGen.single hedge).trans h1
    exact reachB_complete s.length s r x.id le_rfl hnd hacy h2
  have h1 : cr ∈ s.filter (fun x => reachB s r x.id) :=
    List.mem_filter.2 ⟨hcr, by rw [hcrid]; exact reachB_self s r⟩
  have h2 : cr ∉ s.filter (fun x => reachB s c x.id) := by
    intro hmem
    have hb := List.of_mem_filter hmem
    rw [hcrid] at hb
    have hcrr : Reaches s c r := reachB_sound s.length s c r le_rfl hb
    exact cycle_of_edge_reaches hacy hedge hcrr
  simp only [descCount]
  exact sublist_length_lt (filter_mono_of_imp himp) h1 h2

/-! ### Relating the foldl in the delete handler to `deleteChildList` -/

lemma foldl_delete_failed (n : Nat) : ∀ (ids : List String) (t : Store),
    ids.foldl (fun acc c =>
      match acc with
      | DeleteResult.ok s1 v1 =>
        match deleteCommentRecursively n s1 c with
        | DeleteResult.ok s2 v2 => DeleteResult.ok s2 (v1 ++ v2)
        | r => r
      | r => r) (DeleteResult.failed t) = DeleteResult.failed t := by
  intro ids
  induction ids with
  | nil => intro t; rfl
  | cons c rest ih => intro t; exact ih t

lemma foldl_delete_noFuel (n : Nat) : ∀ (ids : List String),
    ids.foldl (fun acc c =>
      match acc with
      | DeleteResult.ok s1 v1 =>
        match deleteCommentRecursively n s1 c with
        | DeleteResult.ok s2 v2 => DeleteResult.ok s2 (v1 ++ v2)
        | r => r
      | r => r) DeleteResult.noFuel = DeleteResult.noFuel := by
  intro ids
  induction ids with
  | nil => rfl
  | cons c rest ih => exact ih

lemma foldl_eq_deleteChildList (n : Nat) : ∀ (ids : List String) (s : Store) (v0 : List String),
    ids.foldl (fun acc c =>
      match acc with
      | DeleteResult.ok s1 v1 =>
        match deleteCommentRecursively n s1 c with
        | DeleteResult.ok s2 v2 => DeleteResult.ok s2 (v1 ++ v2)
        | r => r
      | r => r) (DeleteResult.ok s v0) =
    match deleteChildList n s ids with
    | DeleteResult.ok s2 v2 => DeleteResult.ok s2 (v0 ++ v2)
    | r => r := by
  intro ids
  induction ids with
  | nil => intro s v0; simp [deleteChildList]
  | cons c rest ih =>
    intro s v0
    rw [List.foldl_cons]
    cases hrec : deleteCommentRecursively n s c with
    | ok s1 v1 =>
      simp only [hrec]
      rw [ih s1 (v0 ++ v1)]
      cases hlist : deleteChildList n s1 rest with
      | ok s2 v2 => simp [deleteChildList, hrec, hlist, List.append_assoc]
      | failed t => simp [deleteChildList, hrec, hlist]
      | noFuel => simp [deleteChildList, hrec, hlist]
    | failed t =>
      simp only [hrec]
      rw [foldl_delete_failed n rest t]
      simp [deleteChildList, hrec]
    | noFuel =>
      simp only [hrec]
      rw [foldl_delete_noFuel n rest]
      simp [deleteChildList, hrec]

/-- Unfolding of one level of `deleteCommentRecursively` through
`deleteChildList`. -/
lemma deleteCommentRecursively_succ (n : Nat) (s : Store) (i : String) :
    deleteCommentRecursively (Nat.succ n) s i =
      match deleteChildList n s (childIds s i) with
      | DeleteResult.ok s1 v =>
        match deleteUnique s1 i with
        | some s2 => DeleteResult.ok s2 (v ++ [i])
        | none => DeleteResult.failed s1
      | r => r := by
  rw [deleteCommentRecursively]
  rw [foldl_eq_deleteChildList n (childIds s i) s []]
  cases hlist : deleteChildList n s (childIds s i) with
  | ok s1 v => simp
  | failed t => simp
  | noFuel => simp

/-! ### Helper lemmas about children and preserved reachability -/

lemma mem_childIds {s : Store} {i c : String} :
    c ∈ childIds s i ↔ ChildEdge s i c := by
  simp only [childIds, List.mem_map, List.mem_filter, ChildEdge]
  constructor
  · rintro ⟨cc, ⟨hcc, hpp⟩, hid⟩
    exact ⟨cc, hcc, hid, by simpa using hpp⟩
  · rintro ⟨cc, hcc, hid, hpp⟩
    exact ⟨cc, ⟨hcc, by simpa using hpp⟩, hid⟩

lemma childIds_nodup {s : Store} (hnd : (s.map Comment.id).Nodup) (i : String) :
    (childIds s i).Nodup :=
  hnd.sublist ((List.filter_sublist s).map Comment.id)

lemma children_unrelated {s : Store} (hnd : (s.map Comment.id).Nodup)
    (hacy : Acyclic s) {i a b : String} (ha : ChildEdge s i a) (hb : ChildEdge s i b)
    (hab : a ≠ b) : ¬ Reaches s a b := by
  intro hr
  rcases Relation.ReflTransGen.cases_tail hr with heq | ⟨p, hap, hpb⟩
  · exact hab heq.symm
  · have hpi : p = i := edge_unique hnd hpb hb
    subst hpi
    exact cycle_of_edge_reaches hacy ha hap

lemma pairwise_of_forall_mem_ne {α : Type} {R : α → α → Prop} :
    ∀ {l : List α}, l.Nodup → (∀ a ∈ l, ∀ b ∈ l, a ≠ b → R a b) → l.Pairwise R := by
  intro l
  induction l with
  | nil => intro _ _; exact List.Pairwise.nil
  | cons x xs ih =>
    intro hnd h
    rcases List.nodup_cons.1 hnd with ⟨hx, hxs⟩
    refine List.Pairwise.cons ?_ (ih hxs ?_)
    · intro b hb
      exact h x (List.mem_cons_self x xs) b (List.mem_cons_of_mem x hb)
        (fun hEq => hx (hEq ▸ hb))
    · intro a ha b hb hab
      exact h a (List.mem_cons_of_mem x ha) b (List.mem_cons_of_mem x hb) hab

/-- Deleting the subtree of an unrelated root preserves reachability. -/
lemma reaches_preserved {s s₁ : Store} (hnd : (s.map Comment.id).Nodup) {c₀ i : String}
    (hchar : ∀ c : Comment, c ∈ s₁ ↔ (c ∈ s ∧ ¬ Reaches s c₀ c.id))
    (hic : ¬ Reaches s c₀ i) (hci : ¬ Reaches s i c₀) {x : String}
    (hr : Reaches s i x) : Reaches s₁ i x := by
  induction hr with
  | refl => exact Relation.ReflTransGen.refl
  | tail hay he ih =>
    rename_i y z
    rcases he with ⟨cz, hcz, hid, hp⟩
    have hnz : ¬ Reaches s c₀ z := by
      intro hc0z
      have hiz : Reaches s i z := hay.tail ⟨cz, hcz, hid, hp⟩
      rcases reaches_comparable hnd hc0z hiz with h1 | h1
      · exact hic h1
      · exact hci h1
    exact ih.tail ⟨cz, (hchar cz).2 ⟨hcz, by rw [hid]; exact hnz⟩, hid, hp⟩

/-! ### Full correctness of the cascade delete -/

lemma deleteChildList_spec (n : Nat)
    (hrec : ∀ (s : Store) (r : String), (s.map Comment.id).Nodup → Acyclic s →
      hasId s r = true → descCount s r < n →
      ∃ s' v, deleteCommentRecursively n s r = DeleteResult.ok s' v ∧
        List.Sublist s' s ∧
        (∀ c : Comment, c ∈ s' ↔ (c ∈ s ∧ ¬ Reaches s r c.id)) ∧
        (∀ j : String, j ∈ v ↔ Reaches s r j) ∧
        v.Nodup ∧ v.Pairwise (fun a b => ¬ Reaches s a b)) :
    ∀ (ids : List String) (s : Store), (s.map Comment.id).Nodup → Acyclic s →
      ids.Nodup → (∀ i ∈ ids, hasId s i = true) →
      ids.Pairwise (fun a b => ¬ Reaches s a b ∧ ¬ Reaches s b a) →
      (∀ i ∈ ids, descCount s i < n) →
      ∃ s' v, deleteChildList n s ids = DeleteResult.ok s' v ∧
        List.Sublist s' s ∧
        (∀ c : Comment, c ∈ s' ↔ (c ∈ s ∧ ∀ i ∈ ids, ¬ Reaches s i c.id)) ∧
        (∀ j : String, j ∈ v ↔ ∃ i ∈ ids, Reaches s i j) ∧
        v.Nodup ∧ v.Pairwise (fun a b => ¬ Reaches s a b) := by
  intro ids
  induction ids with
  | nil =>
    intro s hnd hacy _ _ _ _
    refine ⟨s, [], rfl, List.Sublist.refl s, by simp, by simp, List.nodup_nil, List.Pairwise.nil⟩
  | cons c₀ rest ih =>
    intro s hnd hacy hidsnd hex hpw hdc
    have hmem0 : hasId s c₀ = true := hex c₀ (List.mem_cons_self _ _)
    have hdc0 : descCount s c₀ < n := hdc c₀ (List.mem_cons_self _ _)
    obtain ⟨s₁, v₁, heq₁, hsub₁, hchar₁, hv₁, hvnd₁, hvpw₁⟩ := hrec s c₀ hnd hacy hmem0 hdc0
    rcases List.pairwise_cons.1 hpw with ⟨hhead, hpwrest⟩
    rcases List.nodup_cons.1 hidsnd with ⟨hc₀rest, hndrest⟩
    have hsubmem : ∀ t : Comment, t ∈ s₁ → t ∈ s := fun t ht => hsub₁.subset ht
    have hnd₁ : (s₁.map Comment.id).Nodup := hnd.sublist (hsub₁.map Comment.id)
    have hacy₁ : Acyclic s₁ := acyclic_mono hsubmem hacy
    have hex₁ : ∀ i ∈ rest, hasId s₁ i = true := by
      intro i hi
      rcases hasId_iff.1 (hex i (List.mem_cons_of_mem _ hi)) with ⟨ci, hci, hcid⟩
      exact hasId_iff.2 ⟨ci, (hchar₁ ci).2 ⟨hci, by rw [hcid]; exact (hhead i hi).1⟩, hcid⟩
    have hpw₁' : rest.Pairwise (fun a b => ¬ Reaches s₁ a b ∧ ¬ Reaches s₁ b a) :=
      hpwrest.imp (fun hab =>
        ⟨fun h => hab.1 (reaches_mono hsubmem h), fun h => hab.2 (reaches_mono hsubmem h)⟩)
    have hdc₁ : ∀ i ∈ rest, descCount s₁ i < n := fun i hi =>
      Nat.lt_of_le_of_lt (descCount_le_of_sublist hnd hacy hsub₁ i)
        (hdc i (List.mem_cons_of_mem _ hi))
    obtain ⟨s₂, v₂, heq₂, hsub₂, hchar₂, hv₂, hvnd₂, hvpw₂⟩ :=
      ih s₁ hnd₁ hacy₁ hndrest hex₁ hpw₁' hdc₁
    refine ⟨s₂, v₁ ++ v₂, ?_, hsub₂.trans hsub₁, ?_, ?_, ?_, ?_⟩
    · simp [deleteChildList, heq₁, heq₂]
    · intro c
      constructor
      · intro hc
        have h2 := (hchar₂ c).1 hc
        have h1 := (hchar₁ c).1 h2.1
        refine ⟨h1.1, ?_⟩
        intro i hi
        rcases List.mem_cons.1 hi with rfl | hi'
        · exact h1.2
        · intro hrs
          exact (h2.2 i hi')
            (reaches_preserved hnd hchar₁ (hhead i hi').1 (hhead i hi').2 hrs)
      · rintro ⟨hcs, hall⟩
        have hc₁ : c ∈ s₁ := (hchar₁ c).2 ⟨hcs, hall c₀ (List.mem_cons_self _ _)⟩
        refine (hchar₂ c).2 ⟨hc₁, ?_⟩
        intro i hi hr₁
        exact hall i (List.mem_cons_of_mem _ hi) (reaches_mono hsubmem hr₁)
    · intro j
      simp only [List.mem_append]
      constructor
      · rintro (hj | hj)
        · exact ⟨c₀, List.mem_cons_self _ _, (hv₁ j).1 hj⟩
        · rcases (hv₂ j).1 hj with ⟨i, hi, hr⟩
          exact ⟨i, List.mem_cons_of_mem _ hi, reaches_mono hsubmem hr⟩
      · rintro ⟨i, hi, hr⟩
        rcases List.mem_cons.1 hi with rfl | hi'
        · exact Or.inl ((hv₁ j).2 hr)
        · exact Or.inr ((hv₂ j).2
            ⟨i, hi', reaches_preserved hnd hchar₁ (hhead i hi').1 (hhead i hi').2 hr⟩)
    · refine List.Nodup.append hvnd₁ hvnd₂ ?_
      intro j hj₁ hj₂
      have h1 : Reaches s c₀ j := (hv₁ j).1 hj₁
      rcases (hv₂ j).1 hj₂ with ⟨i, hi, hr⟩
      have h2 : Reaches s i j := reaches_mono hsubmem hr
      rcases reaches_comparable hnd h1 h2 with h | h
      · exact (hhead i hi).1 h
      · exact (hhead i hi).2 h
    · rw [List.pairwise_append]
      refine ⟨hvpw₁, ?_, ?_⟩
      · refine List.Pairwise.imp_of_mem ?_ hvpw₂
        intro a b ha hb hnab hrab
        rcases (hv₂ a).1 ha with ⟨ia, hia, hra⟩
        have hsia : Reaches s ia a := reaches_mono hsubmem hra
        have hnc₀a : ¬ Reaches s c₀ a := by
          intro h
          rcases reaches_comparable hnd h hsia with h' | h'
          · exact (hhead ia hia).1 h'
          · exact (hhead ia hia).2 h'
        have hnac₀ : ¬ Reaches s a c₀ := fun h => (hhead ia hia).2 (hsia.trans h)
        exact hnab (reaches_preserved hnd hchar₁ hnc₀a hnac₀ hrab)
      · intro a ha b hb hrab
        have h1 : Reaches s c₀ a := (hv₁ a).1 ha
        rcases (hv₂ b).1 hb with ⟨i, hi, hrb⟩
        have h2 : Reaches s i b := reaches_mono hsubmem hrb
        have h3 : Reaches s c₀ b := h1.trans hrab
        rcases reaches_comparable hnd h3 h2 with h | h
        · exact (hhead i hi).1 h
        · exact (hhead i hi).2 h

lemma deleteRec_spec : ∀ (n : Nat) (s : Store) (r : String),
    (s.map Comment.id).Nodup → Acyclic s → hasId s r = true → descCount s r < n →
    ∃ s' v, deleteCommentRecursively n s r = DeleteResult.ok s' v ∧
      List.Sublist s' s ∧
      (∀ c : Comment, c ∈ s' ↔ (c ∈ s ∧ ¬ Reaches s r c.id)) ∧
      (∀ j : String, j ∈ v ↔ Reaches s r j) ∧
      v.Nodup ∧ v.Pairwise (fun a b => ¬ Reaches s a b) := by
  intro n
  induction n with
  | zero => intro s r _ _ _ hdc; exact absurd hdc (Nat.not_lt_zero _)
  | succ n ih =>
    intro s r hnd hacy hmem hdc
    have hcnd : (childIds s r).Nodup := childIds_nodup hnd r
    have hcedge : ∀ c ∈ childIds s r, ChildEdge s r c := fun c hc => mem_childIds.1 hc
    have hcex : ∀ c ∈ childIds s r, hasId s c = true := by
      intro c hc
      rcases hcedge c hc with ⟨cc, hcc, hid, _⟩
      exact hasId_iff.2 ⟨cc, hcc, hid⟩
    have hcpw : (childIds s r).Pairwise (fun a b => ¬ Reaches s a b ∧ ¬ Reaches s b a) := by
      refine pairwise_of_forall_mem_ne hcnd ?_
      intro a ha b hb hab
      exact ⟨children_unrelated hnd hacy (hcedge a ha) (hcedge b hb) hab,
             children_unrelated hnd hacy (hcedge b hb) (hcedge a ha) (fun h => hab h.symm)⟩
    have hcdc : ∀ c ∈ childIds s r, descCount s c < n := by
      intro c hc
      have h1 := descCount_child_lt hnd hacy (hcedge c hc) hmem
      omega
    obtain ⟨s₁, v, heq₁, hsub₁, hchar₁, hv₁, hvnd₁, hvpw₁⟩ :=
      deleteChildList_spec n ih (childIds s r) s hnd hacy hcnd hcex hcpw hcdc
    rcases hasId_iff.1 hmem with ⟨cr, hcr, hcrid⟩
    have hnotch : ∀ i ∈ childIds s r, ¬ Reaches s i r := by
      intro i hi hir
      exact cycle_of_edge_reaches hacy (hcedge i hi) hir
    have hcr₁ : cr ∈ s₁ := (hchar₁ cr).2 ⟨hcr, by rw [hcrid]; exact hnotch⟩
    have hdel : deleteUnique s₁ r = some (s₁.filter (fun c => !(c.id == r))) := by
      rw [deleteUnique, if_pos (hasId_iff.2 ⟨cr, hcr₁, hcrid⟩)]
    have hdecomp : ∀ x, Reaches s r x ↔ (x = r ∨ ∃ i ∈ childIds s r, Reaches s i x) := by
      intro x
      constructor
      · intro h
        rcases Relation.ReflTransGen.cases_head h with heq | ⟨y, hry, hyx⟩
        · exact Or.inl heq.symm
        · exact Or.inr ⟨y, mem_childIds.2 hry, hyx⟩
      · rintro (rfl | ⟨i, hi, hr⟩)
        · exact Relation.ReflTransGen.refl
        · exact Relation.ReflTransGen.head (hcedge i hi) hr
    refine ⟨s₁.filter (fun c => !(c.id == r)), v ++ [r], ?_, ?_, ?_, ?_, ?_, ?_⟩
    · rw [deleteCommentRecursively_succ]
      simp only [heq₁, hdel]
    · exact (List.filter_sublist s₁).trans hsub₁
    · intro c
      rw [List.mem_filter]
      constructor
      · rintro ⟨hc₁, hcne⟩
        have h1 := (hchar₁ c).1 hc₁
        refine ⟨h1.1, ?_⟩
        rw [hdecomp c.id]
        push_neg
        refine ⟨?_, ?_⟩
        · intro hEq
          simp [hEq] at hcne
        · intro i hi
          exact h1.2 i hi
      · rintro ⟨hcs, hnr⟩
        rw [hdecomp c.id] at hnr
        push_neg at hnr
        refine ⟨(hchar₁ c).2 ⟨hcs, hnr.2⟩, ?_⟩
        simp [hnr.1]
    · intro j
      simp only [List.mem_append, List.mem_singleton]
      rw [hdecomp j]
      constructor
      · rintro (hj | rfl)
        · exact Or.inr ((hv₁ j).1 hj)
        · exact Or.inl rfl
      · rintro (rfl | h)
        · exact Or.inr rfl
        · exact Or.inl ((hv₁ j).2 h)
    · refine List.Nodup.append hvnd₁ (List.nodup_singleton r) ?_
      intro j hj hjr
      rw [List.mem_singleton] at hjr
      subst hjr
      rcases (hv₁ j).1 hj with ⟨i, hi, hr⟩
      exact hnotch i hi hr
    · rw [List.pairwise_append]
      refine ⟨hvpw₁, List.pairwise_singleton _ _, ?_⟩
      intro a ha b hb hrab
      rw [List.mem_singleton] at hb
      subst hb
      rcases (hv₁ a).1 ha with ⟨i, hi, hia⟩
      exact hnotch i hi (hia.trans hrab)

/-! ### Miscellaneous helper lemmas for the handler theorems -/

lemma pairwise_indexOf_lt {R : String → String → Prop} {l : List String}
    (hpw : l.Pairwise R) {a b : String} (ha : a ∈ l) (hb : b ∈ l)
    (hnab : ¬ R b a) (hne : a ≠ b) : l.indexOf a < l.indexOf b := by
  have hia : l.indexOf a < l.length := List.indexOf_lt_length.2 ha
  have hib : l.indexOf b < l.length := List.indexOf_lt_length.2 hb
  rcases Nat.lt_trichotomy (l.indexOf a) (l.indexOf b) with h | h | h
  · exact h
  · exact absurd ((List.indexOf_inj ha hb).1 h) hne
  · have := List.pairwise_iff_getElem.1 hpw (l.indexOf b) (l.indexOf a) hib hia h
    rw [List.getElem_indexOf hia, List.getElem_indexOf hib] at this
    exact absurd this hnab

lemma getComment_map_idpres {s : Store} {i : String} (g : Comment → Comment)
    (hg : ∀ x, (g x).id = x.id) :
    getComment (s.map g) i = (getComment s i).map g := by
  induction s with
  | nil => rfl
  | cons a s ih =>
    show List.find? (fun c => c.id == i) (g a :: List.map g s) =
      Option.map g (List.find? (fun c => c.id == i) (a :: s))
    rw [List.find?_cons, List.find?_cons]
    have hgid : ((g a).id == i) = (a.id == i) := by rw [hg a]
    rw [hgid]
    cases hai : (a.id == i)
    · exact ih
    · rfl

lemma socketLikeComment_none {s : Store} {cid : String}
    (h : getComment s cid = none) : socketLikeComment s cid = (s, SocketEmit.noEmit) := by
  rw [socketLikeComment]
  simp only [h]

lemma socketLikeComment_spec {s : Store} {cid : String} {c : Comment}
    (h : getComment s cid = some c) :
    socketLikeComment s cid =
      (s.map (fun x => if x.id == cid then
          { x with likes := if c.likes > 0 then c.likes - 1 else c.likes + 1 } else x),
        SocketEmit.likeChanged cid (if c.likes > 0 then c.likes - 1 else c.likes + 1)) := by
  have hcid : c.id = cid := (getComment_mem h).2
  rw [socketLikeComment]
  simp only [h, updateUnique]
  simp [hcid]

lemma deleteChildList_result_sublist (n : Nat)
    (hrec : ∀ (s : Store) (i : String),
      (∀ s' v, deleteCommentRecursively n s i = DeleteResult.ok s' v → List.Sublist s' s) ∧
      (∀ s', deleteCommentRecursively n s i = DeleteResult.failed s' → List.Sublist s' s)) :
    ∀ (ids : List String) (s : Store),
      (∀ s' v, deleteChildList n s ids = DeleteResult.ok s' v → List.Sublist s' s) ∧
      (∀ s', deleteChildList n s ids = DeleteResult.failed s' → List.Sublist s' s) := by
  intro ids
  induction ids with
  | nil =>
    intro s
    constructor
    · intro s' v h
      rw [deleteChildList] at h
      injection h with h1 _
      rw [← h1]
    · intro s' h
      rw [deleteChildList] at h
      cases h
  | cons c rest ih =>
    intro s
    constructor
    · intro s' v h
      rw [deleteChildList] at h
      cases hrec1 : deleteCommentRecursively n s c with
      | ok s1 v1 =>
        simp only [hrec1] at h
        cases hlist : deleteChildList n s1 rest with
        | ok s2 v2 =>
          simp only [hlist] at h
          injection h with h1 _
          rw [← h1]
          exact ((ih s1).1 s2 v2 hlist).trans ((hrec s c).1 s1 v1 hrec1)
        | failed t => simp [hlist] at h
        | noFuel => simp [hlist] at h
      | failed t => simp [hrec1] at h
      | noFuel => simp [hrec1] at h
    · intro s' h
      rw [deleteChildList] at h
      cases hrec1 : deleteCommentRecursively n s c with
      | ok s1 v1 =>
        simp only [hrec1] at h
        cases hlist : deleteChildList n s1 rest with
        | ok s2 v2 => simp [hlist] at h
        | failed t =>
          simp only [hlist] at h
          injection h with h1
          rw [← h1]
          exact ((ih s1).2 t hlist).trans ((hrec s c).1 s1 v1 hrec1)
        | noFuel => simp [hlist] at h
      | failed t =>
        simp only [hrec1] at h
        injection h with h1
        rw [← h1]
        exact (hrec s c).2 t hrec1
      | noFuel => simp [hrec1] at h

lemma deleteRec_result_sublist : ∀ (n : Nat) (s : Store) (i : String),
    (∀ s' v, deleteCommentRecursively n s i = DeleteResult.ok s' v → List.Sublist s' s) ∧
    (∀ s', deleteCommentRecursively n s i = DeleteResult.failed s' → List.Sublist s' s) := by
  intro n
  induction n with
  | zero =>
    intro s i
    constructor
    · intro s' v h
      rw [deleteCommentRecursively] at h
      cases h
    · intro s' h
      rw [deleteCommentRecursively] at h
      cases h
  | succ n ih =>
    intro s i
    have hlist := deleteChildList_result_sublist n ih (childIds s i) s
    constructor
    · intro s' v h
      rw [deleteCommentRecursively_succ] at h
      cases hl : deleteChildList n s (childIds s i) with
      | ok s1 v1 =>
        simp only [hl] at h
        cases hdel : deleteUnique s1 i with
        | some s2 =>
          simp only [hdel] at h
          injection h with h1 _
          rw [← h1]
          have hs2 : List.Sublist s2 s1 := by
            rw [deleteUnique] at hdel
            split at hdel
            · injection hdel with h3
              rw [← h3]
              exact List.filter_sublist s1
            · cases hdel
          exact hs2.trans (hlist.1 s1 v1 hl)
        | none => simp [hdel] at h
      | failed t => simp [hl] at h
      | noFuel => simp [hl] at h
    · intro s' h
      rw [deleteCommentRecursively_succ] at h
      cases hl : deleteChildList n s (childIds s i) with
      | ok s1 v1 =>
        simp only [hl] at h
        cases hdel : deleteUnique s1 i with
        | some s2 => simp [hdel] at h
        | none =>
          simp only [hdel] at h
          injection h with h1
          rw [← h1]
          exact hlist.1 s1 v1 hl
      | failed t =>
        simp only [hl] at h
        injection h with h1
        rw [← h1]
        exact hlist.2 t hl
      | noFuel => simp [hl] at h

/-! ### Claim theorems -/

/-- C6 counterexample: the realtime `comment` path performs no validation at
all — it inserts a record even when `nickname` and `text` are both empty
strings, and broadcasts it.  This refutes the claim that the
empty-field validation "holds on every inbound path that accepts a create
operation". -/
theorem realtime_create_skips_validation :
    socketComment [] ("i1") 0 ("") ("") none =
      ([⟨"i1", "", "", none, false, 0, 0⟩],
        SocketEmit.newComment ⟨"i1", "", "", none, false, 0, 0⟩) := by
  rfl

/-- C6 (amended): the HTTP create path rejects a missing or empty `nickname`
or `text` with status 400 and inserts nothing, and inserts exactly one new
record with `likes = 0` otherwise; the realtime create path inserts
unconditionally, with no validation. -/
theorem create_validation_behavior :
    (∀ (s : Store) (newId : String) (now : Nat) (text parentId : Option String),
      postComments s newId now none text parentId = (s, 400)) ∧
    (∀ (s : Store) (newId : String) (now : Nat) (nickname : String)
        (parentId : Option String),
      postComments s newId now (some nickname) none parentId = (s, 400)) ∧
    (∀ (s : Store) (newId : String) (now : Nat) (nickname text : String)
        (parentId : Option String), (nickname == "" || text == "") = true →
      postComments s newId now (some nickname) (some text) parentId = (s, 400)) ∧
    (∀ (s : Store) (newId : String) (now : Nat) (nickname text : String)
        (parentId : Option String), (nickname == "" || text == "") = false →
      postComments s newId now (some nickname) (some text) parentId =
        (s ++ [⟨newId, nickname, text, orNull parentId, defaultEdited, 0, now⟩], 201)) ∧
    (∀ (s : Store) (newId : String) (now : Nat) (nickname text : String)
        (parentId : Option String),
      socketComment s newId now nickname text parentId =
        (s ++ [⟨newId, nickname, text, orNull parentId, defaultEdited, defaultLikes, now⟩],
          SocketEmit.newComment
            ⟨newId, nickname, text, orNull parentId, defaultEdited, defaultLikes, now⟩)) := by
  refine ⟨?_, ?_, ?_, ?_, ?_⟩
  · intro s newId now text parentId
    cases text <;> rfl
  · intro s newId now nickname parentId
    rfl
  · intro s newId now nickname text parentId h
    simp [postComments, h]
  · intro s newId now nickname text parentId h
    simp [postComments, h]
  · intro s newId now nickname text parentId
    rfl

/-- Witness for `create_validation_behavior` at concrete inputs. -/
theorem create_validation_behavior_witness :
    postComments [] ("x") 0 (some ("")) (some ("t")) none = ([], 400) ∧
    postComments [] ("x") 0 (some ("alice")) (some ("hi")) none =
      ([⟨"x", "alice", "hi", none, false, 0, 0⟩], 201) :=
  ⟨create_validation_behavior.2.2.1 [] ("x") 0 ("") ("t") none (by decide),
   create_validation_behavior.2.2.2.1 [] ("x") 0 ("alice") ("hi") none (by decide)⟩

/-- C2 counterexample: deleting a non-existent id is not a silent no-op
success.  The realtime path fails (the `prisma.comment.delete` call throws)
and broadcasts a generic `error` event; the HTTP path answers 404. -/
theorem delete_missing_not_silent_success :
    socketDeleteComment [] ("x") = ([], SocketEmit.errorMsg) ∧
    deleteComments [] (some ("x")) = ([], 404) := by
  constructor <;> rfl

/-- C2 (amended): deleting a non-existent id leaves the store unchanged but
reports failure: the HTTP path answers 404, and the realtime path (when the
missing id also has no orphaned children) keeps the store and broadcasts an
`error` event. -/
theorem delete_missing_is_reported_failure :
    ∀ (s : Store) (i : String), hasId s i = false → (i == "") = false →
      deleteComments s (some i) = (s, 404) ∧
      (childIds s i = [] → socketDeleteComment s i = (s, SocketEmit.errorMsg)) := by
  intro s i hmiss hne
  have hfil : s.filter (fun c => c.id == i) = [] := by
    rw [List.filter_eq_nil_iff]
    intro c hc
    simpa using hasId_false_iff.1 hmiss c hc
  constructor
  · rw [deleteComments]
    simp [hne, deleteManyById, hfil]
  · intro hch
    have hrec : deleteCommentRecursively (delFuel s) s i = DeleteResult.failed s := by
      have h1 : delFuel s = Nat.succ (s.length + 1) := rfl
      rw [h1, deleteCommentRecursively_succ, hch]
      simp [deleteChildList, deleteUnique, hmiss]
    rw [socketDeleteComment, hrec]

/-- Witness for `delete_missing_is_reported_failure` at a concrete store. -/
theorem delete_missing_is_reported_failure_witness :
    deleteComments [⟨"z", "n", "t", none, false, 0, 0⟩] (some ("x")) =
      ([⟨"z", "n", "t", none, false, 0, 0⟩], 404) ∧
    (childIds [⟨"z", "n", "t", none, false, 0, 0⟩] ("x") = [] →
      socketDeleteComment [⟨"z", "n", "t", none, false, 0, 0⟩] ("x") =
        ([⟨"z", "n", "t", none, false, 0, 0⟩], SocketEmit.errorMsg)) :=
  delete_missing_is_reported_failure [⟨"z", "n", "t", none, false, 0, 0⟩] ("x")
    (by decide) (by decide)

/-- C3 counterexample: a successful realtime edit that overwrites `nickname`
and `text` does not set `edited = true`: the handler writes the payload's
`edited` flag instead (here `false`). -/
theorem edit_does_not_always_set_edited :
    socketUpdateComment [⟨"e1", "alice", "hello", none, false, 0, 0⟩] ("e1") ("bob") ("hi")
        (some false) =
      ([⟨"e1", "bob", "hi", none, false, 0, 0⟩],
        SocketEmit.updatedComment ⟨"e1", "bob", "hi", none, false, 0, 0⟩) := by
  rfl

/-- C3 (amended): the HTTP edit path overwrites only `text` and sets
`edited = true`, answering 404 with no change when the id is unknown; the
realtime edit path overwrites `nickname` and `text` but sets `edited` to the
payload's `edited` value (keeping the stored flag when the payload omits it),
and fails with no change and no broadcast when the id is unknown. -/
theorem edit_behavior :
    (∀ (s : Store) (i t : String), (i == "") = false → (t == "") = false →
      hasId s i = false → putComments s (some i) (some t) = (s, 404)) ∧
    (∀ (s : Store) (i t : String) (c : Comment), (i == "") = false → (t == "") = false →
      getComment s i = some c →
      putComments s (some i) (some t) =
        (s.map (fun x => if x.id == i then { x with text := t, edited := true } else x), 200)) ∧
    (∀ (s : Store) (cid nickname text : String) (edited : Option Bool),
      getComment s cid = none →
      socketUpdateComment s cid nickname text edited = (s, SocketEmit.noEmit)) ∧
    (∀ (s : Store) (cid nickname text : String) (edited : Option Bool) (c : Comment),
      getComment s cid = some c →
      socketUpdateComment s cid nickname text edited =
        (s.map (fun x => if x.id == cid then
            { x with nickname := nickname, text := text, edited := edited.getD x.edited }
          else x),
          SocketEmit.updatedComment
            { c with nickname := nickname, text := text, edited := edited.getD c.edited })) := by
  refine ⟨?_, ?_, ?_, ?_⟩
  · intro s i t hi ht hmiss
    have hfil : s.filter (fun c => c.id == i) = [] := by
      rw [List.filter_eq_nil_iff]
      intro c hc
      simpa using hasId_false_iff.1 hmiss c hc
    rw [putComments]
    simp [hi, ht, hfil]
  · intro s i t c hi ht hget
    have hc := getComment_mem hget
    have hne : ((s.filter (fun x => x.id == i)).length == 0) = false := by
      have hmemf : c ∈ s.filter (fun x => x.id == i) :=
        List.mem_filter.2 ⟨hc.1, by simp [hc.2]⟩
      rcases hl : s.filter (fun x => x.id == i) with _ | ⟨a, l⟩
      · rw [hl] at hmemf
        cases hmemf
      · rw [hl]
        rfl
    rw [putComments]
    simp [hi, ht, hne]
  · intro s cid nickname text edited hget
    rw [socketUpdateComment]
    simp only [updateUnique, hget]
  · intro s cid nickname text edited c hget
    rw [socketUpdateComment]
    simp only [updateUnique, hget]

/-- Witness for `edit_behavior` at concrete inputs. -/
theorem edit_behavior_witness :
    putComments [⟨"e1", "alice", "hello", none, false, 0, 0⟩] (some ("zz")) (some ("new")) =
      ([⟨"e1", "alice", "hello", none, false, 0, 0⟩], 404) ∧
    putComments [⟨"e1", "alice", "hello", none, false, 0, 0⟩] (some ("e1")) (some ("new")) =
      ([⟨"e1", "alice", "hello", none, false, 0, 0⟩].map
        (fun x => if x.id == "e1" then { x with text := "new", edited := true } else x), 200) :=
  ⟨(edit_behavior.1 [⟨"e1", "alice", "hello", none, false, 0, 0⟩] ("zz") ("new")
      (by decide) (by decide) (by decide)),
   (edit_behavior.2.1 [⟨"e1", "alice", "hello", none, false, 0, 0⟩] ("e1") ("new")
      ⟨"e1", "alice", "hello", none, false, 0, 0⟩ (by decide) (by decide) (by decide))⟩

/-- C4: the realtime like handler reads the current `likes`, writes
`likes - 1` when it is positive and `likes + 1` otherwise, and broadcasts the
id with the new value; when the id is unknown it writes nothing and
broadcasts nothing. -/
theorem toggle_like_behavior :
    (∀ (s : Store) (cid : String), getComment s cid = none →
      socketLikeComment s cid = (s, SocketEmit.noEmit)) ∧
    (∀ (s : Store) (cid : String) (c : Comment), getComment s cid = some c →
      socketLikeComment s cid =
        (s.map (fun x => if x.id == cid then
            { x with likes := if c.likes > 0 then c.likes - 1 else c.likes + 1 } else x),
          SocketEmit.likeChanged cid (if c.likes > 0 then c.likes - 1 else c.likes + 1))) :=
  ⟨fun _ _ h => socketLikeComment_none h, fun _ _ _ h => socketLikeComment_spec h⟩

/-- Witness for `toggle_like_behavior` at concrete inputs. -/
theorem toggle_like_behavior_witness :
    socketLikeComment [⟨"L", "n", "t", none, false, 0, 0⟩] ("zz") =
      ([⟨"L", "n", "t", none, false, 0, 0⟩], SocketEmit.noEmit) ∧
    socketLikeComment [⟨"L", "n", "t", none, false, 0, 0⟩] ("L") =
      ([⟨"L", "n", "t", none, false, 0, 0⟩].map (fun x => if x.id == "L" then
          { x with likes := if (0 : Int) > 0 then (0 : Int) - 1 else (0 : Int) + 1 } else x),
        SocketEmit.likeChanged ("L") (if (0 : Int) > 0 then (0 : Int) - 1 else (0 : Int) + 1)) :=
  ⟨toggle_like_behavior.1 [⟨"L", "n", "t", none, false, 0, 0⟩] ("zz") (by decide),
   toggle_like_behavior.2 [⟨"L", "n", "t", none, false, 0, 0⟩] ("L")
     ⟨"L", "n", "t", none, false, 0, 0⟩ (by decide)⟩

/-- C5 counterexample: toggling twice is not an involution for every starting
`likes` value.  From `likes = 2`, two successive toggles yield `1` then `0`,
not the original `2`. -/
theorem toggle_twice_not_involutive_at_two :
    (getComment (socketLikeComment
        (socketLikeComment [⟨"L", "n", "t", none, false, 2, 0⟩] ("L")).1 ("L")).1
      ("L")).map Comment.likes = some 0 ∧
    ¬ ((getComment (socketLikeComment
        (socketLikeComment [⟨"L", "n", "t", none, false, 2, 0⟩] ("L")).1 ("L")).1
      ("L")).map Comment.likes = some 2) := by
  constructor
  · rfl
  · intro h
    rw [show (getComment (socketLikeComment
        (socketLikeComment [⟨"L", "n", "t", none, false, 2, 0⟩] ("L")).1 ("L")).1
      ("L")).map Comment.likes = some 0 from rfl] at h
    cases Option.some.inj h

/-- C5 (amended): two successive toggles on the same existing id restore the
record exactly when the starting `likes` value is 0 or 1 — which covers every
value reachable through the system's own operations, since creation
initialises `likes` to 0 and a toggle maps 0 to 1 and 1 to 0. -/
theorem toggle_twice_restores_for_zero_one :
    ∀ (s : Store) (cid : String) (c : Comment), getComment s cid = some c →
      (c.likes = 0 ∨ c.likes = 1) →
      getComment (socketLikeComment (socketLikeComment s cid).1 cid).1 cid = some c := by
  intro s cid c h hl
  have hcid : c.id = cid := (getComment_mem h).2
  have hidpres : ∀ (nl : Int) (x : Comment),
      ((fun x => if x.id == cid then { x with likes := nl } else x) x).id = x.id := by
    intro nl x
    by_cases hx : (x.id == cid) = true <;> simp [hx]
  rw [socketLikeComment_spec h]
  have h1 : getComment (s.map (fun x => if x.id == cid then
      { x with likes := if c.likes > 0 then c.likes - 1 else c.likes + 1 } else x)) cid =
      some { c with likes := if c.likes > 0 then c.likes - 1 else c.likes + 1 } := by
    rw [getComment_map_idpres _ (hidpres _), h]
    simp [hcid]
  rw [socketLikeComment_spec h1]
  rw [getComment_map_idpres _ (hidpres _), h1]
  obtain ⟨ci, cn, ct, cp, ce, cl, cc⟩ := c
  rcases hl with h0 | h1'
  · simp only at h0
    subst h0
    norm_num
    exact hcid
  · simp only at h1'
    subst h1'
    norm_num
    exact hcid

/-- Witness for `toggle_twice_restores_for_zero_one` at a concrete store. -/
theorem toggle_twice_restores_for_zero_one_witness :
    getComment (socketLikeComment
        (socketLikeComment [⟨"L", "n", "t", none, false, 1, 0⟩] ("L")).1 ("L")).1 ("L") =
      some ⟨"L", "n", "t", none, false, 1, 0⟩ :=
  toggle_twice_restores_for_zero_one [⟨"L", "n", "t", none, false, 1, 0⟩] ("L")
    ⟨"L", "n", "t", none, false, 1, 0⟩ (by decide) (Or.inr rfl)

/-- C10: a successful toggle changes only the `likes` field of the targeted
record — `id`, `nickname`, `text`, `parentId`, `edited` and `createdAt` of
every record are unchanged, records with other ids are untouched, and the
store keeps its length. -/
theorem toggle_like_frame :
    ∀ (s : Store) (cid : String) (c : Comment), getComment s cid = some c →
      ∃ s' ev, socketLikeComment s cid = (s', ev) ∧
        s'.length = s.length ∧
        (∀ x ∈ s, x.id ≠ cid → x ∈ s') ∧
        (∀ x ∈ s', ∃ y ∈ s, x.id = y.id ∧ x.nickname = y.nickname ∧ x.text = y.text ∧
          x.parentId = y.parentId ∧ x.edited = y.edited ∧ x.createdAt = y.createdAt ∧
          (x.id ≠ cid → x.likes = y.likes)) ∧
        getComment s' cid =
          some { c with likes := if c.likes > 0 then c.likes - 1 else c.likes + 1 } := by
  intro s cid c h
  have hcid : c.id = cid := (getComment_mem h).2
  have hidpres : ∀ (x : Comment),
      ((fun x => if x.id == cid then
        { x with likes := if c.likes > 0 then c.likes - 1 else c.likes + 1 } else x) x).id =
      x.id := by
    intro x
    by_cases hx : (x.id == cid) = true <;> simp [hx]
  refine ⟨_, _, socketLikeComment_spec h, ?_, ?_, ?_, ?_⟩
  · exact List.length_map s _
  · intro x hx hne
    refine List.mem_map.2 ⟨x, hx, ?_⟩
    simp [hne]
  · intro x hx
    rcases List.mem_map.1 hx with ⟨y, hy, hxy⟩
    refine ⟨y, hy, ?_⟩
    by_cases hyc : (y.id == cid) = true
    · rw [← hxy]
      simp [hyc]
      intro hne
      exact absurd (by simpa using hyc) hne
    · rw [← hxy]
      simp [hyc]
  · rw [getComment_map_idpres _ hidpres, h]
    simp [hcid]

/-- Witness for `toggle_like_frame` at a concrete store. -/
theorem toggle_like_frame_witness :
    ∃ (s' : Store) (ev : SocketEmit),
      socketLikeComment [⟨"L", "n", "t", none, false, 0, 0⟩] ("L") = (s', ev) ∧
      s'.length = ([⟨"L", "n", "t", none, false, 0, 0⟩] : Store).length ∧
      (∀ x ∈ ([⟨"L", "n", "t", none, false, 0, 0⟩] : Store), x.id ≠ "L" → x ∈ s') ∧
      (∀ x ∈ s', ∃ y ∈ [(⟨"L", "n", "t", none, false, 0, 0⟩ : Comment)],
        x.id = y.id ∧ x.nickname = y.nickname ∧ x.text = y.text ∧
        x.parentId = y.parentId ∧ x.edited = y.edited ∧ x.createdAt = y.createdAt ∧
        (x.id ≠ "L" → x.likes = y.likes)) ∧
      getComment s' ("L") =
        some { (⟨"L", "n", "t", none, false, 0, 0⟩ : Comment) with
          likes := if (⟨"L", "n", "t", none, false, 0, 0⟩ : Comment).likes > 0 then
              (⟨"L", "n", "t", none, false, 0, 0⟩ : Comment).likes - 1
            else (⟨"L", "n", "t", none, false, 0, 0⟩ : Comment).likes + 1 } :=
  toggle_like_frame [⟨"L", "n", "t", none, false, 0, 0⟩] ("L")
    ⟨"L", "n", "t", none, false, 0, 0⟩ (by decide)

lemma nonneg_applyOp {s : Store} (hs : ∀ c ∈ s, 0 ≤ c.likes) (op : Op) :
    ∀ c ∈ applyOp s op, 0 ≤ c.likes := by
  cases op with
  | httpCreate newId now nickname text parentId =>
    intro c hc
    rcases nickname with _ | nn
    · rcases text with _ | tt
      · exact hs c hc
      · exact hs c hc
    · rcases text with _ | tt
      · exact hs c hc
      · simp only [applyOp, postComments] at hc
        split at hc
        · exact hs c hc
        · rcases List.mem_append.1 hc with hcc | hcc
          · exact hs c hcc
          · rw [List.mem_singleton] at hcc
            subst hcc
            norm_num
  | rtCreate newId now nickname text parentId =>
    intro c hc
    simp only [applyOp, socketComment] at hc
    rcases List.mem_append.1 hc with hcc | hcc
    · exact hs c hcc
    · rw [List.mem_singleton] at hcc
      subst hcc
      norm_num [defaultLikes]
  | httpEdit id text =>
    intro c hc
    rcases id with _ | i
    · rcases text with _ | t
      · exact hs c hc
      · exact hs c hc
    · rcases text with _ | t
      · exact hs c hc
      · simp only [applyOp, putComments] at hc
        split at hc
        · exact hs c hc
        · split at hc
          · exact hs c hc
          · rcases List.mem_map.1 hc with ⟨y, hy, hxy⟩
            subst hxy
            by_cases hyi : (y.id == i) = true
            · simp only [hyi, if_true]
              exact hs y hy
            · simp only [hyi]
              simp only [Bool.false_eq_true, if_false]
              exact hs y hy
  | rtEdit id nickname text edited =>
    intro c hc
    simp only [applyOp, socketUpdateComment, updateUnique] at hc
    cases hg : getComment s id with
    | none =>
      simp only [hg] at hc
      exact hs c hc
    | some c0 =>
      simp only [hg] at hc
      rcases List.mem_map.1 hc with ⟨y, hy, hxy⟩
      subst hxy
      by_cases hyi : (y.id == id) = true
      · simp only [hyi, if_true]
        exact hs y hy
      · simp only [hyi]
        simp only [Bool.false_eq_true, if_false]
        exact hs y hy
  | rtLike id =>
    intro c hc
    rw [applyOp] at hc
    cases hg : getComment s id with
    | none =>
      rw [socketLikeComment_none hg] at hc
      exact hs c hc
    | some c0 =>
      rw [socketLikeComment_spec hg] at hc
      rcases List.mem_map.1 hc with ⟨y, hy, hxy⟩
      subst hxy
      have h0 : 0 ≤ c0.likes := hs c0 (getComment_mem hg).1
      by_cases hyi : (y.id == id) = true
      · simp only [hyi, if_true]
        show 0 ≤ if c0.likes > 0 then c0.likes - 1 else c0.likes + 1
        split <;> omega
      · simp only [hyi]
        simp only [Bool.false_eq_true, if_false]
        exact hs y hy
  | httpDelete id =>
    intro c hc
    rcases id with _ | i
    · exact hs c hc
    · simp only [applyOp, deleteComments, deleteManyById] at hc
      split at hc
      · exact hs c hc
      · split at hc
        · exact hs c hc
        · exact hs c (List.mem_filter.1 hc).1
  | rtDelete id =>
    intro c hc
    simp only [applyOp, socketDeleteComment] at hc
    cases hd : deleteCommentRecursively (delFuel s) s id with
    | ok s' v =>
      simp only [hd] at hc
      exact hs c (((deleteRec_result_sublist (delFuel s) s id).1 s' v hd).subset hc)
    | failed s' =>
      simp only [hd] at hc
      exact hs c (((deleteRec_result_sublist (delFuel s) s id).2 s' hd).subset hc)
    | noFuel =>
      simp only [hd] at hc
      exact hs c hc

/-- C7: over every inbound path, `likes` stays non-negative under any finite
sequence of non-concurrent operations: creation initialises it to 0 (the HTTP
path explicitly, the realtime path through the schema default), a toggle
never writes a negative value, and the remaining operations never touch
`likes`. -/
theorem likes_nonneg_invariant :
    (∀ (s : Store) (ops : List Op), (∀ c ∈ s, 0 ≤ c.likes) →
      ∀ c ∈ applyOps s ops, 0 ≤ c.likes) ∧
    (∀ (s : Store) (newId : String) (now : Nat) (nickname text : String)
        (parentId : Option String), (nickname == "" || text == "") = false →
      (postComments s newId now (some nickname) (some text) parentId).1 =
        s ++ [⟨newId, nickname, text, orNull parentId, defaultEdited, 0, now⟩]) ∧
    (∀ (s : Store) (newId : String) (now : Nat) (nickname text : String)
        (parentId : Option String),
      (socketComment s newId now nickname text parentId).1 =
        s ++ [⟨newId, nickname, text, orNull parentId, defaultEdited, defaultLikes, now⟩]) ∧
    defaultLikes = 0 := by
  refine ⟨?_, ?_, ?_, rfl⟩
  · intro s ops
    induction ops generalizing s with
    | nil => intro hs; exact hs
    | cons op rest ih =>
      intro hs
      rw [applyOps, List.foldl_cons]
      exact ih (applyOp s op) (nonneg_applyOp hs op)
  · intro s newId now nickname text parentId h
    simp [postComments, h]
  · intro s newId now nickname text parentId
    rfl

/-- Witness for `likes_nonneg_invariant` on a concrete operation sequence. -/
theorem likes_nonneg_invariant_witness :
    ∀ c ∈ applyOps []
      [Op.rtCreate ("a") 0 ("n") ("t") none, Op.rtLike ("a"), Op.rtLike ("a"),
        Op.httpCreate ("b") 1 (some ("m")) (some ("u")) (some ("a")), Op.rtDelete ("a")],
      0 ≤ c.likes :=
  likes_nonneg_invariant.1 []
    [Op.rtCreate ("a") 0 ("n") ("t") none, Op.rtLike ("a"), Op.rtLike ("a"),
      Op.httpCreate ("b") 1 (some ("m")) (some ("u")) (some ("a")), Op.rtDelete ("a")]
    (by simp)

/-- C9: the listing sorts by `createdAt` descending, skips `(page-1)*limit`
records and returns at most `limit` of them; `totalComments` is the store
size, `totalPages` is the ceiling of `totalComments / limit` (pinned down by
the two inequalities `totalComments ≤ limit * totalPages < totalComments +
limit`), and `currentPage` echoes the request.  In particular, on the
25-comment store, page 1 with limit 10 returns 10 items with `totalPages = 3`
and page 3 returns 5 items. -/
theorem pagination_behavior :
    (∀ (s : Store) (page limit : Nat), 1 ≤ page → 1 ≤ limit →
      ∃ sorted : List Comment, sorted.Perm s ∧
        sorted.Pairwise (fun a b => b.createdAt ≤ a.createdAt) ∧
        listComments s page limit =
          ⟨(sorted.drop ((page - 1) * limit)).take limit, s.length,
            (s.length + limit - 1) / limit, page⟩ ∧
        (listComments s page limit).comments.length =
          min limit (s.length - (page - 1) * limit) ∧
        (listComments s page limit).comments.Pairwise
          (fun a b => b.createdAt ≤ a.createdAt) ∧
        s.length ≤ limit * (listComments s page limit).totalPages ∧
        limit * (listComments s page limit).totalPages < s.length + limit ∧
        (listComments s page limit).totalComments = s.length ∧
        (listComments s page limit).currentPage = page) ∧
    (listComments demoStore 1 10).comments.length = 10 ∧
    (listComments demoStore 1 10).totalPages = 3 ∧
    (listComments demoStore 1 10).totalComments = 25 ∧
    (listComments demoStore 3 10).comments.length = 5 ∧
    (listComments demoStore 3 10).currentPage = 3 := by
  refine ⟨?_, by rfl, by rfl, by rfl, by rfl, by rfl⟩
  intro s page limit hp hl
  refine ⟨List.insertionSort olderFirst s, List.perm_insertionSort olderFirst s,
    List.sorted_insertionSort olderFirst s, rfl, ?_, ?_, ?_, ?_, rfl, rfl⟩
  · show (((List.insertionSort olderFirst s).drop ((page - 1) * limit)).take limit).length = _
    rw [List.length_take, List.length_drop,
      (List.perm_insertionSort olderFirst s).length_eq]
  · exact List.Pairwise.sublist
      ((List.take_sublist _ _).trans (List.drop_sublist _ _))
      (List.sorted_insertionSort olderFirst s)
  · show s.length ≤ limit * ((s.length + limit - 1) / limit)
    have h1 := Nat.div_add_mod (s.length + limit - 1) limit
    have h2 := Nat.mod_lt (s.length + limit - 1) (Nat.lt_of_lt_of_le Nat.zero_lt_one hl)
    omega
  · show limit * ((s.length + limit - 1) / limit) < s.length + limit
    have h1 := Nat.div_add_mod (s.length + limit - 1) limit
    omega

/-- Witness for `pagination_behavior` at concrete inputs. -/
theorem pagination_behavior_witness :
    ∃ sorted : List Comment, sorted.Perm demoStore ∧
      sorted.Pairwise (fun a b => b.createdAt ≤ a.createdAt) ∧
      listComments demoStore 1 10 =
        ⟨(sorted.drop ((1 - 1) * 10)).take 10, demoStore.length,
          (demoStore.length + 10 - 1) / 10, 1⟩ ∧
      (listComments demoStore 1 10).comments.length =
        min 10 (demoStore.length - (1 - 1) * 10) ∧
      (listComments demoStore 1 10).comments.Pairwise
        (fun a b => b.createdAt ≤ a.createdAt) ∧
      demoStore.length ≤ 10 * (listComments demoStore 1 10).totalPages ∧
      10 * (listComments demoStore 1 10).totalPages < demoStore.length + 10 ∧
      (listComments demoStore 1 10).totalComments = demoStore.length ∧
      (listComments demoStore 1 10).currentPage = 1 :=
  pagination_behavior.1 demoStore 1 10 (by decide) (by decide)

/-- C1: on a store with unique ids whose parent edges are acyclic, a
successful delete of an existing id `r` removes exactly `r` and every comment
transitively reachable from `r` along `parentId` edges: afterwards both the
root and every prior descendant are absent, every other record is untouched,
and in the deletion trace every child id is deleted strictly before its
parent.  The handler broadcasts a single `deleteComment` event naming the
root id. -/
theorem cascade_delete_removes_subtree :
    ∀ (s : Store) (r : String), (s.map Comment.id).Nodup → acyclicB s = true →
      hasId s r = true →
      ∃ (s' : Store) (v : List String),
        deleteCommentRecursively (delFuel s) s r = DeleteResult.ok s' v ∧
        socketDeleteComment s r = (s', SocketEmit.deleted r) ∧
        getComment s' r = none ∧
        (∀ d, Reaches s r d → getComment s' d = none) ∧
        (∀ c ∈ s, ¬ Reaches s r c.id → c ∈ s') ∧
        (∀ c ∈ s', c ∈ s ∧ ¬ Reaches s r c.id) ∧
        (∀ c ∈ s, ∀ p, c.id ∈ v → c.parentId = some p → p ∈ v →
          v.indexOf c.id < v.indexOf p) := by
  intro s r hnd hb hmem
  have hacy := acyclicB_sound hnd hb
  have hdc : descCount s r < delFuel s :=
    Nat.lt_of_le_of_lt (descCount_le_length s r) (by rw [delFuel]; omega)
  obtain ⟨s', v, heq, hsub, hchar, hv, hvnd, hvpw⟩ :=
    deleteRec_spec (delFuel s) s r hnd hacy hmem hdc
  refine ⟨s', v, heq, ?_, ?_, ?_, ?_, ?_, ?_⟩
  · rw [socketDeleteComment, heq]
  · rw [getComment, List.find?_eq_none]
    intro x hx hbeq
    have h1 := (hchar x).1 hx
    have hxr : x.id = r := by simpa using hbeq
    exact h1.2 (by rw [hxr]; exact Relation.ReflTransGen.refl)
  · intro d hd
    rw [getComment, List.find?_eq_none]
    intro x hx hbeq
    have h1 := (hchar x).1 hx
    have hxd : x.id = d := by simpa using hbeq
    exact h1.2 (by rw [hxd]; exact hd)
  · intro c hc hnr
    exact (hchar c).2 ⟨hc, hnr⟩
  · intro c hc
    exact (hchar c).1 hc
  · intro c hc p hcv hp hpv
    have hedge : ChildEdge s p c.id := ⟨c, hc, rfl, hp⟩
    have hrp : Reaches s p c.id := Relation.ReflTransGen.single hedge
    have hne : c.id ≠ p := by
      intro hEq
      exact hacy p (Relation.TransGen.single (hEq ▸ hedge))
    exact pairwise_indexOf_lt hvpw hcv hpv (fun hn => hn hrp) hne

/-- Witness for `cascade_delete_removes_subtree` on the concrete store
a ← b ← c with unrelated root d. -/
theorem cascade_delete_removes_subtree_witness :
    ∃ (s' : Store) (v : List String),
      deleteCommentRecursively (delFuel exStore) exStore ("a") = DeleteResult.ok s' v ∧
      socketDeleteComment exStore ("a") = (s', SocketEmit.deleted ("a")) ∧
      getComment s' ("a") = none ∧
      (∀ d, Reaches exStore ("a") d → getComment s' d = none) ∧
      (∀ c ∈ exStore, ¬ Reaches exStore ("a") c.id → c ∈ s') ∧
      (∀ c ∈ s', c ∈ exStore ∧ ¬ Reaches exStore ("a") c.id) ∧
      (∀ c ∈ exStore, ∀ p, c.id ∈ v → c.parentId = some p → p ∈ v →
        v.indexOf c.id < v.indexOf p) :=
  cascade_delete_removes_subtree exStore ("a") (by decide) (by decide) (by decide)

/-- C8: on a store with unique ids and acyclic parent edges, the cascade
delete started at any id terminates within fuel `delFuel s` (it never runs
out of fuel), and when the id exists it succeeds with a trace that names
every node of the subtree exactly once. -/
theorem cascade_delete_terminates :
    ∀ (s : Store) (r : String), (s.map Comment.id).Nodup → acyclicB s = true →
      deleteCommentRecursively (delFuel s) s r ≠ DeleteResult.noFuel ∧
      (hasId s r = true →
        ∃ (s' : Store) (v : List String),
          deleteCommentRecursively (delFuel s) s r = DeleteResult.ok s' v ∧
          v.Nodup ∧ (∀ j, j ∈ v ↔ Reaches s r j)) := by
  intro s r hnd hb
  have hacy := acyclicB_sound hnd hb
  by_cases hmem : hasId s r = true
  · obtain ⟨s', v, heq, _, _, hv, hvnd, _⟩ :=
      deleteRec_spec (delFuel s) s r hnd hacy hmem
        (Nat.lt_of_le_of_lt (descCount_le_length s r) (by rw [delFuel]; omega))
    constructor
    · rw [heq]
      intro h
      cases h
    · intro _
      exact ⟨s', v, heq, hvnd, hv⟩
  · have hmem' : hasId s r = false := by
      rcases Bool.eq_false_or_eq_true (hasId s r) with h | h
      · exact absurd h hmem
      · exact h
    have hcnd : (childIds s r).Nodup := childIds_nodup hnd r
    have hcedge : ∀ c ∈ childIds s r, ChildEdge s r c := fun c hc => mem_childIds.1 hc
    have hcex : ∀ c ∈ childIds s r, hasId s c = true := by
      intro c hc
      rcases hcedge c hc with ⟨cc, hcc, hid, _⟩
      exact hasId_iff.2 ⟨cc, hcc, hid⟩
    have hcpw : (childIds s r).Pairwise (fun a b => ¬ Reaches s a b ∧ ¬ Reaches s b a) := by
      refine pairwise_of_forall_mem_ne hcnd ?_
      intro a ha b hb hab
      exact ⟨children_unrelated hnd hacy (hcedge a ha) (hcedge b hb) hab,
             children_unrelated hnd hacy (hcedge b hb) (hcedge a ha) (fun h => hab h.symm)⟩
    have hcdc : ∀ c ∈ childIds s r, descCount s c < s.length + 1 :=
      fun c _ => Nat.lt_of_le_of_lt (descCount_le_length s c) (Nat.lt_succ_self _)
    obtain ⟨s₁, v, heq₁, hsub₁, _, _, _, _⟩ :=
      deleteChildList_spec (s.length + 1) (deleteRec_spec (s.length + 1))
        (childIds s r) s hnd hacy hcnd hcex hcpw hcdc
    have hs₁ : hasId s₁ r = false := by
      rw [hasId_false_iff]
      intro c hc
      exact hasId_false_iff.1 hmem' c (hsub₁.subset hc)
    have hdel : deleteUnique s₁ r = none := by
      rw [deleteUnique]
      simp [hs₁]
    constructor
    · show deleteCommentRecursively (Nat.succ (s.length + 1)) s r ≠ DeleteResult.noFuel
      rw [deleteCommentRecursively_succ]
      simp only [heq₁, hdel]
      intro h
      cases h
    · intro h
      rw [hmem'] at h
      cases h

/-- Witness for `cascade_delete_terminates` on the concrete store. -/
theorem cascade_delete_terminates_witness :
    deleteCommentRecursively (delFuel exStore) exStore ("b") ≠ DeleteResult.noFuel ∧
    (hasId exStore ("b") = true →
      ∃ (s' : Store) (v : List String),
        deleteCommentRecursively (delFuel exStore) exStore ("b") = DeleteResult.ok s' v ∧
        v.Nodup ∧ (∀ j, j ∈ v ↔ Reaches exStore ("b") j)) :=
  cascade_delete_terminates exStore ("b") (by decide) (by decide)
